import Mathlib

/-!
Verification of the Subchassis mapper repository
(`Subchassis_validation.py`, `Subchassis_mapping.py`).

The development shallowly embeds the core transform of the two scripts:
cell normalization (`astype(str).str.strip()`), the left merge performed by
`pd.merge(..., how='left')` on a composite `join_key` column, the post-merge
column handling, the filter stage of `Subchassis_mapping.py`, the
red-highlight / missing-count logic, and the fuzzy column suggestion built
on `difflib.get_close_matches`.
-/

set_option autoImplicit false

deriving instance DecidableEq for Except

namespace Chassis

/-- A spreadsheet cell as pandas sees it after reading an Excel sheet:
a missing value (`NaN`), a string, or an integer scalar. -/
inductive Cell where
  | na : Cell
  | str : String → Cell
  | int : Int → Cell
deriving DecidableEq, Repr

/-- A row of a DataFrame: ordered association list from column name to cell.
Column names are unique within a row (pandas schema). -/
abbrev Row := List (String × Cell)

/-- A DataFrame: its ordered column names plus its rows. -/
structure Table where
  cols : List String
  rows : List Row
deriving DecidableEq, Repr

/-- Well-formedness of a DataFrame: every row carries exactly the schema's
column names, in order. -/
def Table.wf (t : Table) : Prop :=
  ∀ r ∈ t.rows, r.map Prod.fst = t.cols

/-- Python whitespace characters stripped by `str.strip()` (ASCII part). -/
def isPySpace (c : Char) : Bool :=
  c = ' ' || c = '\t' || c = '\n' || c = '\x0b' || c = '\x0c' || c = '\r'

/-- `str.strip()` on a character list: drop whitespace from both ends. -/
def stripChars (l : List Char) : List Char :=
  ((l.dropWhile isPySpace).reverse.dropWhile isPySpace).reverse

/-- Python `str.strip()`. -/
def pyStrip (s : String) : String :=
  String.mk (stripChars s.toList)

/-- Python `str(x)` as applied by `astype(str)` to a cell: `NaN` renders as
the literal string `"nan"`, strings stay, integers print in decimal. -/
def pyStr : Cell → String
  | Cell.na => "nan"
  | Cell.str s => s
  | Cell.int n => toString n

/-- The key normalizer of both scripts: `astype(str).str.strip()` applied to
one cell (`Subchassis_validation.py` lines 61-62, `Subchassis_mapping.py`
lines 63-64). -/
def normalize (c : Cell) : String :=
  pyStrip (pyStr c)

/-- Read a cell of a row by column name (`df[col]` for one row); pandas rows
always carry the schema, so the default is never reached on well-formed data. -/
def getCell (r : Row) (c : String) : Cell :=
  (r.lookup c).getD Cell.na

/-- The in-place column normalization
`df[c] = df[c].astype(str).str.strip()` applied to one row, for each column
name in `cs`: the named cells are replaced by their normalized string, every
other cell and the column order are untouched. -/
def normRow (cs : List String) (r : Row) : Row :=
  r.map (fun kv => if cs.contains kv.1 then (kv.1, Cell.str (normalize kv.2)) else kv)

/-- The string stored in a (normalized) cell, as used when the scripts build
`join_key` from already-normalized columns. -/
def cellStr (r : Row) (c : String) : String :=
  pyStr (getCell r c)

/-- The left-side `join_key` of `Subchassis_validation.py` (lines 65-70):
the style cell, plus `"_"` and the customer-department cell when one is
selected. Applied to rows already passed through `normRow`. -/
def joinKeyL (sc : String) (cc : Option String) (r : Row) : String :=
  match cc with
  | none => cellStr r sc
  | some c => cellStr r sc ++ "_" ++ cellStr r c

/-- The right-side `join_key` (lines 66-71): the reference table's fixed
`Style` column, plus `"_"` and its `Department` column when a customer
column was selected on the left. -/
def joinKeyR (cc : Option String) (r : Row) : String :=
  match cc with
  | none => cellStr r "Style"
  | some _ => cellStr r "Style" ++ "_" ++ cellStr r "Department"

/-- The right rows whose join key equals `k`, in original order. -/
def keyMatches (rrs : List Row) (rKey : Row → String) (k : String) : List Row :=
  rrs.filter (fun rr => rKey rr = k)

/-- `pd.merge(left, right[[join_key, attr]], on='join_key', how='left')`
followed by dropping `join_key`: every left row is emitted once per matching
right row (in the right table's original order), carrying the matching row's
`attr` value appended at the end; a left row with no match is emitted once
with a `NaN` fill for `attr`. -/
def mergeLeft (lrs rrs : List Row) (lKey rKey : Row → String) (attr : String) : List Row :=
  lrs.flatMap (fun lr =>
    if (keyMatches rrs rKey (lKey lr)).isEmpty then [lr ++ [(attr, Cell.na)]]
    else (keyMatches rrs rKey (lKey lr)).map (fun rr => lr ++ [(attr, getCell rr attr)]))

/-- The attribute value the merge assigns to a left row with key `k` when
the right keys are unique: the first matching right row's `attr` cell, or
`NaN` when no right row matches. -/
def firstMatchVal (rrs : List Row) (rKey : Row → String) (attr : String) (k : String) : Cell :=
  match keyMatches rrs rKey k with
  | [] => Cell.na
  | rr :: _ => getCell rr attr

/-- Whether the left merge finds a match for key `k`: the matched marker of
a joined row (realized in the scripts' output as a non-`NaN` fill source). -/
def matchedKey (rrs : List Row) (rKey : Row → String) (k : String) : Bool :=
  rrs.any (fun rr => rKey rr = k)

/-- The typed error of the embedding: a referenced column name absent from
its DataFrame (a pandas `KeyError` in the scripts, caught by the generic
`except` handler). -/
inductive JoinError where
  | ColumnNotFound : String → JoinError
deriving DecidableEq, Repr

/-- The left-side key columns the mapping run references. -/
def leftKeyCols (sc : String) (cc : Option String) : List String :=
  sc :: cc.toList

/-- The right-side key columns the mapping run references. -/
def rightKeyCols (cc : Option String) : List String :=
  "Style" :: (if cc.isSome then ["Department"] else [])

/-- The key-column pairs (left column, right column) the run joins on:
the mandatory style pair plus the optional customer/department pair. -/
def keyPairs (sc : String) (cc : Option String) : List (String × String) :=
  (sc, "Style") :: (cc.map (fun c => (c, "Department"))).toList

/-- The first referenced column missing from its table, in the order the
script accesses them (`Subchassis_validation.py` lines 61, 62, 68, 69, 74),
or `none` when all referenced columns exist. -/
def missingCol (d r : Table) (sc : String) (cc : Option String) : Option String :=
  if sc ∈ d.cols then
    if "Style" ∈ r.cols then
      match cc with
      | some c =>
        if c ∈ d.cols then
          if "Department" ∈ r.cols then
            if "LatestSubChassis" ∈ r.cols then none else some "LatestSubChassis"
          else some "Department"
        else some c
      | none =>
        if "LatestSubChassis" ∈ r.cols then none else some "LatestSubChassis"
    else some "Style"
  else some sc

/-- The mapping pipeline of `Subchassis_validation.py` (lines 61-79) on
tables whose left schema does not already contain `LatestSubChassis`:
normalize the key columns in place, build the composite join keys, left
merge the reference's `LatestSubChassis` onto the planning rows, drop the
key column and leave `LatestSubChassis` as the last column. A missing
referenced column aborts with `ColumnNotFound` before any output exists. -/
def runMapping (d r : Table) (sc : String) (cc : Option String) : Except JoinError Table :=
  match missingCol d r sc cc with
  | some c => Except.error (JoinError.ColumnNotFound c)
  | none =>
    let dn := d.rows.map (normRow (leftKeyCols sc cc))
    let rn := r.rows.map (normRow (rightKeyCols cc))
    Except.ok ⟨d.cols ++ ["LatestSubChassis"],
      mergeLeft dn rn (joinKeyL sc cc) (joinKeyR cc) "LatestSubChassis"⟩

/-- `pd.isna` on a cell. -/
def isNa : Cell → Bool
  | Cell.na => true
  | _ => false

/-- The rows the output loop paints red (`Subchassis_validation.py` lines
90-92, `Subchassis_mapping.py` lines 139-141): per row, whether its
`LatestSubChassis` cell is `NaN`. -/
def flaggedRows (rows : List Row) : List Bool :=
  rows.map (fun r => isNa (getCell r "LatestSubChassis"))

/-- `df["LatestSubChassis"].isna().sum()` (`Subchassis_mapping.py` line 104). -/
def missingCount (rows : List Row) : Nat :=
  (rows.filter (fun r => isNa (getCell r "LatestSubChassis"))).length

/-! ### Properties of the normalizer -/

theorem dropWhile_self {α : Type} (p : α → Bool) (l : List α) :
    (l.dropWhile p).dropWhile p = l.dropWhile p := by
  induction l with
  | nil => rfl
  | cons c l ih =>
    by_cases h : p c
    · simp [List.dropWhile_cons, h, ih]
    · simp [List.dropWhile_cons, h]

theorem exists_append_dropWhile {α : Type} (p : α → Bool) (l : List α) :
    ∃ t, t ++ l.dropWhile p = l := by
  induction l with
  | nil => exact ⟨[], rfl⟩
  | cons c l ih =>
    by_cases h : p c
    · obtain ⟨t, ht⟩ := ih
      exact ⟨c :: t, by simp [List.dropWhile_cons, h, ht]⟩
    · exact ⟨[], by simp [List.dropWhile_cons, h]⟩

theorem dropWhile_eq_self_of_append {α : Type} (p : α → Bool) (x t y : List α)
    (hxy : x ++ t = y) (hy : y.dropWhile p = y) : x.dropWhile p = x := by
  cases x with
  | nil => rfl
  | cons c x' =>
    have hc : p c = false := by
      by_contra hcon
      have hpc : p c = true := by simpa using hcon
      subst hxy
      rw [List.cons_append, List.dropWhile_cons, if_pos hpc] at hy
      obtain ⟨t0, ht0⟩ := exists_append_dropWhile p (x' ++ t)
      have hlen := congrArg List.length hy
      have hlen0 := congrArg List.length ht0
      simp [List.length_append] at hlen hlen0
      omega
    simp [List.dropWhile_cons, hc]

theorem stripChars_idem (l : List Char) : stripChars (stripChars l) = stripChars l := by
  show (((((l.dropWhile isPySpace).reverse.dropWhile isPySpace).reverse).dropWhile
      isPySpace).reverse.dropWhile isPySpace).reverse
    = ((l.dropWhile isPySpace).reverse.dropWhile isPySpace).reverse
  have h1 : (l.dropWhile isPySpace).dropWhile isPySpace = l.dropWhile isPySpace :=
    dropWhile_self isPySpace l
  have hpre : ∃ t, ((l.dropWhile isPySpace).reverse.dropWhile isPySpace).reverse ++ t
      = l.dropWhile isPySpace := by
    obtain ⟨t, ht⟩ := exists_append_dropWhile isPySpace (l.dropWhile isPySpace).reverse
    refine ⟨t.reverse, ?_⟩
    have hrev := congrArg List.reverse ht
    simpa [List.reverse_append] using hrev
  have h2 : (((l.dropWhile isPySpace).reverse.dropWhile isPySpace).reverse).dropWhile isPySpace
      = ((l.dropWhile isPySpace).reverse.dropWhile isPySpace).reverse := by
    obtain ⟨t, ht⟩ := hpre
    exact dropWhile_eq_self_of_append isPySpace _ t _ ht h1
  rw [h2, List.reverse_reverse, dropWhile_self]

theorem pyStrip_idem (s : String) : pyStrip (pyStrip s) = pyStrip s := by
  show String.mk (stripChars (String.mk (stripChars s.toList)).toList) = _
  rw [show (String.mk (stripChars s.toList)).toList = stripChars s.toList from rfl,
    stripChars_idem]
  rfl

/-- C9: `normalize` is idempotent: for every scalar cell `x`, re-normalizing
the (string) result of `normalize x` returns it unchanged —
`astype(str).str.strip()` applied twice equals applying it once. -/
theorem normalize_idem (x : Cell) :
    normalize (Cell.str (normalize x)) = normalize x := by
  show pyStrip (pyStrip (pyStr x)) = pyStrip (pyStr x)
  exact pyStrip_idem (pyStr x)

/-- C3 counterexample: the claim "null/missing input normalizes to the
literal empty string" is false: `astype(str)` renders `NaN` as the sentinel
string `"nan"`, so `normalize` of a missing cell is not `""`. -/
theorem normalize_null_not_empty : ¬ (normalize Cell.na = "") := by decide

/-- C3 amended: a null/missing input value normalizes to the sentinel
string `"nan"` (the `str()` rendering of `NaN`, unchanged by stripping),
not to the literal empty string. -/
theorem normalize_null_eq_nan :
    normalize Cell.na = "nan" ∧ ("nan" : String) ≠ "" := by decide

/-! ### Properties of the left merge -/

theorem keyMatches_length_le_one {rrs : List Row} {rKey : Row → String} {k : String}
    (h : (rrs.map rKey).Nodup) : (keyMatches rrs rKey k).length ≤ 1 := by
  induction rrs with
  | nil => simp [keyMatches]
  | cons rr rest ih =>
    simp only [List.map_cons, List.nodup_cons] at h
    by_cases hk : rKey rr = k
    · have hnil : keyMatches rest rKey k = [] := by
        rw [keyMatches, List.filter_eq_nil_iff]
        intro a ha
        simp only [decide_eq_true_eq]
        intro hka
        exact h.1 (List.mem_map.mpr ⟨a, ha, by rw [hka, hk]⟩)
      have hcons : keyMatches (rr :: rest) rKey k = rr :: keyMatches rest rKey k := by
        simp [keyMatches, List.filter_cons, hk]
      rw [hcons, hnil]
      simp
    · have hcons : keyMatches (rr :: rest) rKey k = keyMatches rest rKey k := by
        simp [keyMatches, List.filter_cons, hk]
      rw [hcons]
      exact ih h.2

theorem matchedKey_iff_ne_nil (rrs : List Row) (rKey : Row → String) (k : String) :
    matchedKey rrs rKey k = true ↔ keyMatches rrs rKey k ≠ [] := by
  rw [matchedKey, keyMatches, List.any_eq_true, Ne, List.filter_eq_nil_iff]
  push_neg
  simp

theorem matchedKey_iff_mem (rrs : List Row) (rKey : Row → String) (k : String) :
    matchedKey rrs rKey k = true ↔ k ∈ rrs.map rKey := by
  rw [matchedKey, List.any_eq_true, List.mem_map]
  constructor
  · rintro ⟨rr, hrr, hk⟩
    exact ⟨rr, hrr, by simpa using hk⟩
  · rintro ⟨rr, hrr, hk⟩
    exact ⟨rr, hrr, by simpa using hk⟩

theorem mergeLeft_nil (rrs : List Row) (lKey rKey : Row → String) (attr : String) :
    mergeLeft [] rrs lKey rKey attr = [] := rfl

theorem mergeLeft_cons (lr : Row) (rest rrs : List Row) (lKey rKey : Row → String)
    (attr : String) :
    mergeLeft (lr :: rest) rrs lKey rKey attr
      = (if (keyMatches rrs rKey (lKey lr)).isEmpty then [lr ++ [(attr, Cell.na)]]
         else (keyMatches rrs rKey (lKey lr)).map (fun rr => lr ++ [(attr, getCell rr attr)]))
        ++ mergeLeft rest rrs lKey rKey attr := by
  simp only [mergeLeft, List.flatMap_cons]

theorem mergeBlock_eq_of_nodup {rrs : List Row} {rKey : Row → String}
    (h : (rrs.map rKey).Nodup) (lr : Row) (attr : String) (k : String) :
    (if (keyMatches rrs rKey k).isEmpty then [lr ++ [(attr, Cell.na)]]
     else (keyMatches rrs rKey k).map (fun rr => lr ++ [(attr, getCell rr attr)]))
      = [lr ++ [(attr, firstMatchVal rrs rKey attr k)]] := by
  rcases hm : keyMatches rrs rKey k with _ | ⟨rr, ms⟩
  · simp [firstMatchVal, hm]
  · have hle := keyMatches_length_le_one (k := k) h
    rw [hm] at hle
    have hms : ms = [] := by
      cases ms with
      | nil => rfl
      | cons a b => simp at hle
    subst hms
    simp [firstMatchVal, hm]

theorem mergeLeft_eq_map_of_nodup (lrs : List Row) {rrs : List Row}
    (lKey : Row → String) {rKey : Row → String} (attr : String)
    (h : (rrs.map rKey).Nodup) :
    mergeLeft lrs rrs lKey rKey attr
      = lrs.map (fun lr => lr ++ [(attr, firstMatchVal rrs rKey attr (lKey lr))]) := by
  induction lrs with
  | nil => rfl
  | cons lr rest ih =>
    rw [mergeLeft_cons, mergeBlock_eq_of_nodup h, List.map_cons, ih, List.singleton_append]

theorem mergeLeft_length (lrs rrs : List Row) (lKey rKey : Row → String) (attr : String) :
    (mergeLeft lrs rrs lKey rKey attr).length
      = (lrs.map (fun lr => max 1 (keyMatches rrs rKey (lKey lr)).length)).sum := by
  induction lrs with
  | nil => rfl
  | cons lr rest ih =>
    rw [mergeLeft_cons, List.length_append, ih, List.map_cons, List.sum_cons]
    rcases hm : keyMatches rrs rKey (lKey lr) with _ | ⟨rr, ms⟩
    · simp [hm]
    · simp [hm]

theorem mergeLeft_mem_first {lrs rrs : List Row} {lKey rKey : Row → String} {attr : String}
    {lr : Row} (hlr : lr ∈ lrs) (hne : keyMatches rrs rKey (lKey lr) ≠ []) :
    (lr ++ [(attr, firstMatchVal rrs rKey attr (lKey lr))]) ∈ mergeLeft lrs rrs lKey rKey attr := by
  rw [mergeLeft, List.mem_flatMap]
  refine ⟨lr, hlr, ?_⟩
  rcases hm : keyMatches rrs rKey (lKey lr) with _ | ⟨rr, ms⟩
  · exact absurd hm hne
  · simp only [hm, List.isEmpty_cons, if_neg Bool.false_ne_true, List.mem_map]
    exact ⟨rr, List.mem_cons_self rr ms, by rw [firstMatchVal, hm]⟩

theorem runMapping_ok_parts {d r : Table} {sc : String} {cc : Option String} {t : Table}
    (hok : runMapping d r sc cc = Except.ok t) :
    t.cols = d.cols ++ ["LatestSubChassis"] ∧
    t.rows = mergeLeft (d.rows.map (normRow (leftKeyCols sc cc)))
        (r.rows.map (normRow (rightKeyCols cc)))
        (joinKeyL sc cc) (joinKeyR cc) "LatestSubChassis" := by
  rw [runMapping] at hok
  cases h : missingCol d r sc cc with
  | some c => rw [h] at hok; cases hok
  | none =>
    rw [h] at hok
    cases hok
    exact ⟨rfl, rfl⟩

/-! ### C1: unique keys on both sides -/

/-- Planning table of the unique-key scenario. -/
def c1d : Table :=
  ⟨["Style", "Dept"],
   [[("Style", Cell.str "A1"), ("Dept", Cell.str "Men")],
    [("Style", Cell.str "A2"), ("Dept", Cell.str "Men")]]⟩

/-- Reference table of the unique-key scenario. -/
def c1r : Table :=
  ⟨["Style", "LatestSubChassis"],
   [[("Style", Cell.str "A1"), ("LatestSubChassis", Cell.str "SC100")]]⟩

/-- Expected join output of the unique-key scenario. -/
def c1t : Table :=
  ⟨["Style", "Dept", "LatestSubChassis"],
   [[("Style", Cell.str "A1"), ("Dept", Cell.str "Men"), ("LatestSubChassis", Cell.str "SC100")],
    [("Style", Cell.str "A2"), ("Dept", Cell.str "Men"), ("LatestSubChassis", Cell.na)]]⟩

/-- C1: when the normalized join keys are unique on both sides, the join
returns exactly one output row per left row (`len(result) == len(L)`), each
output row is its left row with the looked-up attribute appended, and the
match marker of a left row is true iff its normalized composite key occurs
among the right table's normalized composite keys. -/
theorem join_unique_keys_spec (d r : Table) (sc : String) (cc : Option String) (t : Table)
    (hok : runMapping d r sc cc = Except.ok t)
    (huR : ((r.rows.map (normRow (rightKeyCols cc))).map (joinKeyR cc)).Nodup)
    (_huL : ((d.rows.map (normRow (leftKeyCols sc cc))).map (joinKeyL sc cc)).Nodup) :
    t.rows.length = d.rows.length ∧
    t.rows = (d.rows.map (normRow (leftKeyCols sc cc))).map
      (fun lr => lr ++ [("LatestSubChassis",
        firstMatchVal (r.rows.map (normRow (rightKeyCols cc))) (joinKeyR cc) "LatestSubChassis"
          (joinKeyL sc cc lr))]) ∧
    ∀ lr ∈ d.rows.map (normRow (leftKeyCols sc cc)),
      (matchedKey (r.rows.map (normRow (rightKeyCols cc))) (joinKeyR cc) (joinKeyL sc cc lr) = true
        ↔ joinKeyL sc cc lr ∈ (r.rows.map (normRow (rightKeyCols cc))).map (joinKeyR cc)) := by
  obtain ⟨hcols, hrows⟩ := runMapping_ok_parts hok
  rw [hrows, mergeLeft_eq_map_of_nodup _ _ _ huR]
  refine ⟨by simp, rfl, ?_⟩
  intro lr _
  exact matchedKey_iff_mem _ _ _

/-- C1 witness: the unique-key scenario instantiates the theorem; the
output has as many rows as the planning table. -/
theorem join_unique_keys_spec_app : c1t.rows.length = c1d.rows.length :=
  (join_unique_keys_spec c1d c1r "Style" none c1t (by decide) (by decide) (by decide)).1

/-! ### C2: duplicate keys on the right side -/

/-- Planning table with one row of key `A`. -/
def c2d : Table := ⟨["Style"], [[("Style", Cell.str "A")]]⟩

/-- Reference table with two rows of the same key `A` but different
attribute values. -/
def c2r : Table :=
  ⟨["Style", "LatestSubChassis"],
   [[("Style", Cell.str "A"), ("LatestSubChassis", Cell.str "S1")],
    [("Style", Cell.str "A"), ("LatestSubChassis", Cell.str "S2")]]⟩

/-- Actual join output on the duplicate-key tables: the single left row is
emitted twice, once per matching reference row. -/
def c2t : Table :=
  ⟨["Style", "LatestSubChassis"],
   [[("Style", Cell.str "A"), ("LatestSubChassis", Cell.str "S1")],
    [("Style", Cell.str "A"), ("LatestSubChassis", Cell.str "S2")]]⟩

/-- C2 counterexample: with two reference rows sharing key `A`, the merge
emits the left row twice (one row per duplicate, carrying `S1` and `S2`),
so left row cardinality is not preserved and the output does not carry only
the first duplicate's attribute values. -/
theorem join_dup_keys_cex :
    runMapping c2d c2r "Style" none = Except.ok c2t ∧
    c2d.rows.length = 1 ∧ c2t.rows.length = 2 := by decide

/-- C2 amended: when the right side contains duplicate keys, the left row is
duplicated — the output holds one row per matching reference row (in the
reference's original order), so the row count is the sum over left rows of
`max 1 (number of matches)`; the first duplicate's attribute values do
appear, on the first of the emitted rows. -/
theorem join_dup_keys_amended (d r : Table) (sc : String) (cc : Option String) (t : Table)
    (hok : runMapping d r sc cc = Except.ok t) :
    t.rows.length
      = ((d.rows.map (normRow (leftKeyCols sc cc))).map
          (fun lr => max 1 (keyMatches (r.rows.map (normRow (rightKeyCols cc))) (joinKeyR cc)
            (joinKeyL sc cc lr)).length)).sum ∧
    ∀ lr ∈ d.rows.map (normRow (leftKeyCols sc cc)),
      matchedKey (r.rows.map (normRow (rightKeyCols cc))) (joinKeyR cc) (joinKeyL sc cc lr) = true →
      (lr ++ [("LatestSubChassis",
        firstMatchVal (r.rows.map (normRow (rightKeyCols cc))) (joinKeyR cc) "LatestSubChassis"
          (joinKeyL sc cc lr))]) ∈ t.rows := by
  obtain ⟨hcols, hrows⟩ := runMapping_ok_parts hok
  refine ⟨by rw [hrows, mergeLeft_length], ?_⟩
  intro lr hlr hm
  rw [hrows]
  exact mergeLeft_mem_first hlr ((matchedKey_iff_ne_nil _ _ _).mp hm)

/-- C2 witness: the duplicate-key tables instantiate the amended theorem. -/
theorem join_dup_keys_amended_app :
    c2t.rows.length
      = ((c2d.rows.map (normRow (leftKeyCols "Style" none))).map
          (fun lr => max 1 (keyMatches (c2r.rows.map (normRow (rightKeyCols none))) (joinKeyR none)
            (joinKeyL "Style" none lr)).length)).sum :=
  (join_dup_keys_amended c2d c2r "Style" none c2t (by decide)).1

/-! ### C4: blank/missing join keys -/

/-- Planning table whose only row has a missing style cell. -/
def c4d : Table := ⟨["Style"], [[("Style", Cell.na)]]⟩

/-- Reference table whose only row also has a missing style cell. -/
def c4r : Table :=
  ⟨["Style", "LatestSubChassis"],
   [[("Style", Cell.na), ("LatestSubChassis", Cell.str "SC1")]]⟩

/-- Actual join output: the blank-keyed rows match (both normalize to the
key `"nan"`), so the left row receives `SC1`. -/
def c4t : Table :=
  ⟨["Style", "LatestSubChassis"],
   [[("Style", Cell.str "nan"), ("LatestSubChassis", Cell.str "SC1")]]⟩

/-- C4 counterexample: a left row with a blank (missing) key is not marked
unmatched — it matches the blank-keyed reference row, receives its
`LatestSubChassis` value `SC1`, and is not flagged. -/
theorem blank_key_cex :
    runMapping c4d c4r "Style" none = Except.ok c4t ∧
    flaggedRows c4t.rows = [false] ∧
    matchedKey (c4r.rows.map (normRow (rightKeyCols none))) (joinKeyR none)
      (joinKeyL "Style" none (normRow (leftKeyCols "Style" none) [("Style", Cell.na)]))
      = true := by decide

/-- C4 amended: blank/missing-key left rows do match: whenever a reference
row's normalized composite key equals the left row's — including the blank
cases where both keys are `"nan"` (missing cells) or `""` (whitespace
cells) — the left row is marked matched and the joined row carrying the
first such reference row's attribute value is in the output. -/
theorem blank_key_amended (d r : Table) (sc : String) (cc : Option String) (t : Table)
    (hok : runMapping d r sc cc = Except.ok t) (lr rr : Row)
    (hl : lr ∈ d.rows.map (normRow (leftKeyCols sc cc)))
    (hr : rr ∈ r.rows.map (normRow (rightKeyCols cc)))
    (_hblank : joinKeyL sc cc lr = "nan" ∨ joinKeyL sc cc lr = "")
    (hk : joinKeyR cc rr = joinKeyL sc cc lr) :
    matchedKey (r.rows.map (normRow (rightKeyCols cc))) (joinKeyR cc) (joinKeyL sc cc lr) = true ∧
    (lr ++ [("LatestSubChassis",
      firstMatchVal (r.rows.map (normRow (rightKeyCols cc))) (joinKeyR cc) "LatestSubChassis"
        (joinKeyL sc cc lr))]) ∈ t.rows := by
  obtain ⟨-, hrows⟩ := runMapping_ok_parts hok
  have hm : matchedKey (r.rows.map (normRow (rightKeyCols cc))) (joinKeyR cc)
      (joinKeyL sc cc lr) = true :=
    List.any_eq_true.mpr ⟨rr, hr, by simp [hk]⟩
  refine ⟨hm, ?_⟩
  rw [hrows]
  exact mergeLeft_mem_first hl ((matchedKey_iff_ne_nil _ _ _).mp hm)

/-- C4 witness: the blank-key tables instantiate the amended theorem with
both keys normalizing to `"nan"`. -/
theorem blank_key_amended_app :
    (normRow (leftKeyCols "Style" none) [("Style", Cell.na)] ++ [("LatestSubChassis",
      firstMatchVal (c4r.rows.map (normRow (rightKeyCols none))) (joinKeyR none) "LatestSubChassis"
        (joinKeyL "Style" none (normRow (leftKeyCols "Style" none) [("Style", Cell.na)])))])
      ∈ c4t.rows :=
  (blank_key_amended c4d c4r "Style" none c4t (by decide)
    (normRow (leftKeyCols "Style" none) [("Style", Cell.na)])
    (normRow (rightKeyCols none) [("Style", Cell.na), ("LatestSubChassis", Cell.str "SC1")])
    (by decide) (by decide) (by decide) (by decide)).2

/-! ### C6: output shape -/

/-- Planning table whose style value carries surrounding whitespace. -/
def c6d : Table := ⟨["Style"], [[("Style", Cell.str " A1 ")]]⟩

/-- Reference table for the whitespace scenario. -/
def c6r : Table :=
  ⟨["Style", "LatestSubChassis"],
   [[("Style", Cell.str "A1"), ("LatestSubChassis", Cell.str "SC100")]]⟩

/-- Actual output: the style cell was normalized in place to `"A1"`. -/
def c6t : Table :=
  ⟨["Style", "LatestSubChassis"],
   [[("Style", Cell.str "A1"), ("LatestSubChassis", Cell.str "SC100")]]⟩

/-- C6 counterexample: the output does not contain the original left-table
columns unchanged — the join-key column's values are normalized in place,
so the original cell `" A1 "` comes out as `"A1"`. -/
theorem join_columns_changed_cex :
    runMapping c6d c6r "Style" none = Except.ok c6t ∧
    c6d.rows.map (fun r0 => getCell r0 "Style") = [Cell.str " A1 "] ∧
    c6t.rows.map (fun r0 => getCell r0 "Style") = [Cell.str "A1"] ∧
    Cell.str " A1 " ≠ Cell.str "A1" := by decide

/-- C6 amended: the output keeps the left table's column names in their
original order with the single attribute column appended at the end, and
every output row is an original left row — with its join-key column values
replaced by their normalized form — with the attribute cell appended at the
end; left rows are emitted in their original order (one block per left row,
see the duplicate-key amendment for block sizes). -/
theorem join_shape_amended (d r : Table) (sc : String) (cc : Option String) (t : Table)
    (hok : runMapping d r sc cc = Except.ok t) :
    t.cols = d.cols ++ ["LatestSubChassis"] ∧
    t.rows = mergeLeft (d.rows.map (normRow (leftKeyCols sc cc)))
        (r.rows.map (normRow (rightKeyCols cc))) (joinKeyL sc cc) (joinKeyR cc)
        "LatestSubChassis" ∧
    ∀ row ∈ t.rows, ∃ lr ∈ d.rows, ∃ v : Cell,
      row = normRow (leftKeyCols sc cc) lr ++ [("LatestSubChassis", v)] := by
  obtain ⟨hcols, hrows⟩ := runMapping_ok_parts hok
  refine ⟨hcols, hrows, ?_⟩
  intro row hrow
  rw [hrows, mergeLeft, List.mem_flatMap] at hrow
  obtain ⟨lr', hlr', hin⟩ := hrow
  rw [List.mem_map] at hlr'
  obtain ⟨lr, hlr, rfl⟩ := hlr'
  refine ⟨lr, hlr, ?_⟩
  by_cases hemp : (keyMatches (r.rows.map (normRow (rightKeyCols cc))) (joinKeyR cc)
      (joinKeyL sc cc (normRow (leftKeyCols sc cc) lr))).isEmpty
  · rw [if_pos hemp, List.mem_singleton] at hin
    exact ⟨Cell.na, hin⟩
  · rw [if_neg hemp, List.mem_map] at hin
    obtain ⟨rr, _, heq⟩ := hin
    exact ⟨getCell rr "LatestSubChassis", heq.symm⟩

/-- C6 witness: the whitespace scenario instantiates the amended theorem;
the output schema is the planning schema plus `LatestSubChassis` at the end. -/
theorem join_shape_amended_app : c6t.cols = c6d.cols ++ ["LatestSubChassis"] :=
  (join_shape_amended c6d c6r "Style" none c6t (by decide)).1

/-! ### C7: missing referenced columns -/

/-- Whether every column the mapping run references exists in its table:
the selected style column in the planning table; `Style`,
`LatestSubChassis` and (when a customer column is selected) `Department` in
the reference table; and the selected customer column in the planning
table. -/
def colsPresent (d r : Table) (sc : String) (cc : Option String) : Bool :=
  decide (sc ∈ d.cols) && decide ("Style" ∈ r.cols) && decide ("LatestSubChassis" ∈ r.cols) &&
    (match cc with
     | none => true
     | some c => decide (c ∈ d.cols) && decide ("Department" ∈ r.cols))

theorem missingCol_eq_none_iff (d r : Table) (sc : String) (cc : Option String) :
    missingCol d r sc cc = none ↔ colsPresent d r sc cc = true := by
  rcases cc with _ | c <;>
    · simp only [missingCol, colsPresent]
      split_ifs <;> simp_all

theorem missingCol_some_missing {d r : Table} {sc : String} {cc : Option String} {c : String}
    (h : missingCol d r sc cc = some c) : c ∉ d.cols ∨ c ∉ r.cols := by
  rcases cc with _ | c0 <;>
    · simp only [missingCol] at h
      split_ifs at h <;> simp_all

/-- C7: whenever any referenced column is missing from its table, the
mapping run fails with the typed `ColumnNotFound` error naming a column
absent from its table, and produces no output table; and the key spec the
run joins on always contains at least the style pair, so the zero-pair
(`EmptyKeySpec`) condition never arises. -/
theorem join_missing_column_spec (d r : Table) (sc : String) (cc : Option String)
    (h : colsPresent d r sc cc = false) :
    (missingCol d r sc cc).isSome = true ∧
    (∀ c, missingCol d r sc cc = some c →
      (c ∉ d.cols ∨ c ∉ r.cols) ∧
      runMapping d r sc cc = Except.error (JoinError.ColumnNotFound c) ∧
      ∀ t, runMapping d r sc cc ≠ Except.ok t) ∧
    keyPairs sc cc ≠ [] := by
  refine ⟨?_, ?_, by simp [keyPairs]⟩
  · cases hm : missingCol d r sc cc with
    | some c => rfl
    | none =>
      rw [missingCol_eq_none_iff] at hm
      rw [hm] at h
      cases h
  · intro c hc
    have herr : runMapping d r sc cc = Except.error (JoinError.ColumnNotFound c) := by
      rw [runMapping, hc]
    refine ⟨missingCol_some_missing hc, herr, ?_⟩
    intro t hok
    rw [herr] at hok
    cases hok

/-- Planning table for the missing-column scenario. -/
def c7d : Table := ⟨["Style"], [[("Style", Cell.str "A1")]]⟩

/-- Reference table lacking the mandatory `Style` column. -/
def c7r : Table := ⟨["Sty", "LatestSubChassis"], []⟩

/-- C7 witness: joining against a reference table without a `Style` column
fails with `ColumnNotFound "Style"`. -/
theorem join_missing_column_spec_app :
    runMapping c7d c7r "Style" none = Except.error (JoinError.ColumnNotFound "Style") :=
  (((join_missing_column_spec c7d c7r "Style" none (by decide)).2.1 "Style" (by decide)).2).1

/-! ### C10: unmatched status from nullness of the attribute -/

theorem lookup_append_right (c : String) (l1 l2 : Row) (h : ∀ kv ∈ l1, kv.1 ≠ c) :
    (l1 ++ l2).lookup c = l2.lookup c := by
  induction l1 with
  | nil => rfl
  | cons kv l1 ih =>
    obtain ⟨k, v⟩ := kv
    have hk : k ≠ c := h (k, v) (List.mem_cons_self (k, v) l1)
    have hne : (c == k) = false := by
      simpa using hk.symm
    rw [List.cons_append]
    simp only [List.lookup, hne]
    exact ih (fun kv' hkv' => h kv' (List.mem_cons_of_mem _ hkv'))

theorem normRow_fst (cs : List String) (r0 : Row) :
    (normRow cs r0).map Prod.fst = r0.map Prod.fst := by
  rw [normRow, List.map_map]
  apply List.map_congr_left
  intro kv _
  by_cases h : kv.1 ∈ cs <;> simp [h]

theorem getCell_append_attr (lr : Row) (attr : String) (v : Cell)
    (h : ∀ kv ∈ lr, kv.1 ≠ attr) :
    getCell (lr ++ [(attr, v)]) attr = v := by
  rw [getCell, lookup_append_right attr lr _ h]
  simp [List.lookup]

/-- C10: the red-highlight flag and the missing-subchassis count are driven
solely by nullness of the appended `LatestSubChassis` cell: a joined row is
flagged iff the value the merge assigned it is `NaN`, and the missing count
is the number of such rows — so a left row matching a reference row whose
own `LatestSubChassis` is blank is flagged and counted exactly like an
unmatched row. -/
theorem flag_iff_null_attribute (d r : Table) (sc : String) (cc : Option String) (t : Table)
    (hok : runMapping d r sc cc = Except.ok t)
    (huR : ((r.rows.map (normRow (rightKeyCols cc))).map (joinKeyR cc)).Nodup)
    (hwf : d.wf) (hnc : "LatestSubChassis" ∉ d.cols) :
    flaggedRows t.rows
      = (d.rows.map (normRow (leftKeyCols sc cc))).map
          (fun lr => isNa (firstMatchVal (r.rows.map (normRow (rightKeyCols cc))) (joinKeyR cc)
            "LatestSubChassis" (joinKeyL sc cc lr))) ∧
    missingCount t.rows
      = ((d.rows.map (normRow (leftKeyCols sc cc))).filter
          (fun lr => isNa (firstMatchVal (r.rows.map (normRow (rightKeyCols cc))) (joinKeyR cc)
            "LatestSubChassis" (joinKeyL sc cc lr)))).length := by
  obtain ⟨hcols, hrows⟩ := runMapping_ok_parts hok
  rw [hrows, mergeLeft_eq_map_of_nodup _ _ _ huR]
  have hcell : ∀ lr ∈ d.rows.map (normRow (leftKeyCols sc cc)),
      getCell (lr ++ [("LatestSubChassis",
        firstMatchVal (r.rows.map (normRow (rightKeyCols cc))) (joinKeyR cc) "LatestSubChassis"
          (joinKeyL sc cc lr))]) "LatestSubChassis"
      = firstMatchVal (r.rows.map (normRow (rightKeyCols cc))) (joinKeyR cc) "LatestSubChassis"
          (joinKeyL sc cc lr) := by
    intro lr hlr
    obtain ⟨lr0, hlr0, rfl⟩ := List.mem_map.mp hlr
    apply getCell_append_attr
    intro kv hkv
    have hmem : kv.1 ∈ (normRow (leftKeyCols sc cc) lr0).map Prod.fst :=
      List.mem_map_of_mem Prod.fst hkv
    rw [normRow_fst, hwf lr0 hlr0] at hmem
    exact fun hEq => hnc (hEq ▸ hmem)
  constructor
  · rw [flaggedRows, List.map_map]
    apply List.map_congr_left
    intro lr hlr
    simp only [Function.comp]
    rw [hcell lr hlr]
  · rw [missingCount, List.filter_map, List.length_map]
    congr 1
    apply List.filter_congr
    intro lr hlr
    simp only [Function.comp]
    rw [hcell lr hlr]

/-- Planning table for the matched-but-blank-attribute scenario. -/
def c10d : Table := ⟨["Style"], [[("Style", Cell.str "A")]]⟩

/-- Reference table whose matching row has a blank `LatestSubChassis`. -/
def c10r : Table :=
  ⟨["Style", "LatestSubChassis"],
   [[("Style", Cell.str "A"), ("LatestSubChassis", Cell.na)]]⟩

/-- Actual output: the left row matched, yet carries a `NaN` attribute. -/
def c10t : Table :=
  ⟨["Style", "LatestSubChassis"],
   [[("Style", Cell.str "A"), ("LatestSubChassis", Cell.na)]]⟩

/-- C10 witness: the matched row whose reference `LatestSubChassis` is
blank is red-flagged and counted missing exactly like an unmatched row. -/
theorem flag_iff_null_attribute_app :
    flaggedRows c10t.rows = [true] ∧ missingCount c10t.rows = 1 := by
  have h := flag_iff_null_attribute c10d c10r "Style" none c10t (by decide) (by decide)
    (by intro r0 hr0; simp only [c10d, List.mem_singleton] at hr0; subst hr0; rfl) (by decide)
  rw [h.1, h.2]
  decide

/-! ### C8: the filter stage of `Subchassis_mapping.py` -/

/-- One `df[col].isin(selected)` membership test on a row. -/
def passFilter (c : String) (allowed : List Cell) (r0 : Row) : Bool :=
  allowed.contains (getCell r0 c)

/-- The filter stage (`Subchassis_mapping.py` lines 93-99): each of the
customer, department and season selections is applied in turn, and only
when it is non-empty (Python's `if selected:` truthiness); the season
filter additionally requires that a season column was selected at all
(`season_col != "<None>"`, modelled as `seasonCol = some _`). -/
def filtered_df (merged : List Row) (custCol deptCol : String) (seasonCol : Option String)
    (selCust selDept selSeason : List Cell) : List Row :=
  let f1 := if selCust.isEmpty then merged else merged.filter (passFilter custCol selCust)
  let f2 := if selDept.isEmpty then f1 else f1.filter (passFilter deptCol selDept)
  match seasonCol with
  | none => f2
  | some scol => if selSeason.isEmpty then f2 else f2.filter (passFilter scol selSeason)

theorem applySel_eq (c : String) (sel : List Cell) (l : List Row) :
    (if sel.isEmpty then l else l.filter (passFilter c sel))
      = l.filter (fun r0 => sel.isEmpty || passFilter c sel r0) := by
  by_cases h : sel.isEmpty
  · simp [h]
  · simp [h]

theorem filter_chain {α : Type} (p q : α → Bool) (l : List α) :
    (l.filter p).filter q = l.filter (fun a => p a && q a) := by
  induction l with
  | nil => rfl
  | cons a l ih => by_cases hp : p a <;> by_cases hq : q a <;> simp [List.filter_cons, hp, hq, ih]

/-- C8: the filter stage keeps exactly the rows passing every non-empty
filter entry, as one conjunctive row-wise filter over the merged table (so
stable order is preserved), and with all selections empty it is the
identity on the merged table. -/
theorem filtered_df_conj_noop (merged : List Row) (custCol deptCol : String)
    (seasonCol : Option String) (selCust selDept selSeason : List Cell) :
    filtered_df merged custCol deptCol seasonCol selCust selDept selSeason
      = merged.filter (fun r0 =>
          (selCust.isEmpty || passFilter custCol selCust r0) &&
          ((selDept.isEmpty || passFilter deptCol selDept r0) &&
           (match seasonCol with
            | none => true
            | some scol => selSeason.isEmpty || passFilter scol selSeason r0))) ∧
    filtered_df merged custCol deptCol seasonCol [] [] [] = merged := by
  constructor
  · rcases seasonCol with _ | scol
    · simp only [filtered_df]
      rw [applySel_eq, applySel_eq, filter_chain]
      simp
    · simp only [filtered_df]
      rw [applySel_eq, applySel_eq, applySel_eq, filter_chain, filter_chain]
  · rcases seasonCol with _ | scol <;> simp [filtered_df]

/-! ### C5: fuzzy column suggestion (`difflib.get_close_matches`)

The embedding follows `difflib.SequenceMatcher` with `isjunk=None` on
short sequences (under the 200-character autojunk threshold, which the
scripts' target keywords never reach): the longest-match dynamic program,
the matching-blocks recursion, and `ratio() = 2*M / (len(a)+len(b))`,
with the cutoff test `ratio >= 0.6` carried out as the exact rational
comparison `2*M/T ≥ 3/5`. -/

/-- One row of the `find_longest_match` dynamic program: for character
`ai` of the first sequence, the lengths of the maximal common runs ending
at each position `j` of `b` inside `[blo, bhi)`, given the previous row's
run lengths `j2len` (keys of `j2len` are always `≥ blo`, so the Python
`j2len.get(j-1, 0)` lookup is `0` exactly when `j = 0` or no run ended at
`j-1`). -/
def flmRow (ai : Char) (b : List Char) (blo bhi : Nat) (j2len : List (Nat × Nat)) :
    List (Nat × Nat) :=
  ((List.range bhi).filter (fun j => decide (blo ≤ j) && (b[j]? == some ai))).map
    (fun j => (j, if j = 0 then 1 else (j2len.lookup (j - 1)).getD 0 + 1))

/-- `SequenceMatcher.find_longest_match` on `a[alo:ahi] × b[blo:bhi]`
(no junk): the `(i, j, size)` of the longest matching block, preferring
the earliest `i`, then the earliest `j` (the first strictly larger run
found wins, scanning `i` then `j` in increasing order). -/
def findLongestMatch (a b : List Char) (alo ahi blo bhi : Nat) : Nat × Nat × Nat :=
  ((List.range' alo (ahi - alo)).foldl
    (fun (acc : (Nat × Nat × Nat) × List (Nat × Nat)) i =>
      let nj := flmRow (a.getD i ' ') b blo bhi acc.2
      (nj.foldl
        (fun best jk =>
          if jk.2 > best.2.2 then (i + 1 - jk.2, jk.1 + 1 - jk.2, jk.2) else best)
        acc.1, nj))
    ((alo, blo, 0), [])).1

/-- The total size of `get_matching_blocks`: the found longest block plus
recursion on the windows before and after it. `fuel` dominates the
recursion depth (which halves the window sum each level), so the
top-level call below never exhausts it. -/
def matchTotalF (a b : List Char) : Nat → Nat → Nat → Nat → Nat → Nat
  | 0, _, _, _, _ => 0
  | fuel + 1, alo, ahi, blo, bhi =>
    let ijk := findLongestMatch a b alo ahi blo bhi
    if ijk.2.2 = 0 then 0
    else ijk.2.2 + matchTotalF a b fuel alo ijk.1 blo ijk.2.1
           + matchTotalF a b fuel (ijk.1 + ijk.2.2) ahi (ijk.2.1 + ijk.2.2) bhi

/-- The number `M` of matching characters between the two sequences. -/
def matchTotal (a b : List Char) : Nat :=
  matchTotalF a b (a.length + b.length + 1) 0 a.length 0 b.length

/-- The exact value of `SequenceMatcher.ratio()` for `seq1 = cand`,
`seq2 = target`, as a numerator/denominator pair `(2*M, T)` (with the
empty-by-empty case defined as `1`, as in `difflib`). -/
def ratioRep (target cand : String) : Nat × Nat :=
  if cand.length + target.length = 0 then (1, 1)
  else (2 * matchTotal cand.toList target.toList, cand.length + target.length)

/-- The cutoff test `ratio() >= 0.6` of `get_close_matches` at the
scripts' threshold, as the exact comparison `2*M/T ≥ 3/5`. -/
def ratioQual (target cand : String) : Bool :=
  5 * (ratioRep target cand).1 ≥ 3 * (ratioRep target cand).2

/-- Whether candidate `y` scores strictly higher than `x` for `target` in
`heapq.nlargest`'s order on the pairs `(ratio, candidate)`: larger ratio
first, ratio ties broken toward the lexicographically larger string. -/
def betterCand (target x y : String) : Bool :=
  decide ((ratioRep target y).1 * (ratioRep target x).2
      > (ratioRep target x).1 * (ratioRep target y).2) ||
  (decide ((ratioRep target y).1 * (ratioRep target x).2
      = (ratioRep target x).1 * (ratioRep target y).2) && decide (x < y))

/-- `difflib.get_close_matches(target, cands, n=1, cutoff=0.6)`: the best
candidate meeting the cutoff (first of equals kept, as `nlargest` does),
or `none` when no candidate qualifies. -/
def getCloseMatch1 (target : String) (cands : List String) : Option String :=
  cands.foldl
    (fun best c =>
      if ratioQual target c then
        match best with
        | none => some c
        | some b => if betterCand target b c then some c else best
      else best)
    none

/-- `fuzzy_match_column` (`Subchassis_validation.py` lines 25-31): for
each target name the single best close match, all distinct matches
collected into one deduplicated list (`list(set(matches.values()))`,
modelled up to order: one occurrence kept per distinct match). -/
def fuzzy_match_column (possible_names columns : List String) : List String :=
  (possible_names.filterMap (fun n => getCloseMatch1 n columns)).dedup

theorem ratioRep_den_pos (t c : String) : 0 < (ratioRep t c).2 := by
  rw [ratioRep]
  split_ifs with h
  · exact Nat.one_pos
  · exact Nat.pos_of_ne_zero h

theorem betterCand_irrefl (t x : String) : betterCand t x x = false := by
  simp [betterCand, lt_irrefl]

theorem cross_lt_trans {a1 a2 b1 b2 c1 c2 : Nat} (ha : 0 < a2) (_hb : 0 < b2) (hc : 0 < c2)
    (h1 : a1 * b2 < b1 * a2) (h2 : b1 * c2 < c1 * b2) : a1 * c2 < c1 * a2 := by
  nlinarith [Nat.mul_lt_mul_of_lt_of_le h1 (le_refl c2) hc,
    Nat.mul_lt_mul_of_lt_of_le h2 (le_refl a2) ha]

theorem cross_lt_eq_trans {a1 a2 b1 b2 c1 c2 : Nat} (_ha : 0 < a2) (_hb : 0 < b2) (hc : 0 < c2)
    (h1 : a1 * b2 < b1 * a2) (h2 : b1 * c2 = c1 * b2) : a1 * c2 < c1 * a2 := by
  nlinarith [Nat.mul_lt_mul_of_lt_of_le h1 (le_refl c2) hc]

theorem cross_eq_lt_trans {a1 a2 b1 b2 c1 c2 : Nat} (ha : 0 < a2) (_hb : 0 < b2) (_hc : 0 < c2)
    (h1 : a1 * b2 = b1 * a2) (h2 : b1 * c2 < c1 * b2) : a1 * c2 < c1 * a2 := by
  nlinarith [Nat.mul_lt_mul_of_lt_of_le h2 (le_refl a2) ha]

theorem cross_eq_trans {a1 a2 b1 b2 c1 c2 : Nat} (hb : 0 < b2)
    (h1 : a1 * b2 = b1 * a2) (h2 : b1 * c2 = c1 * b2) : a1 * c2 = c1 * a2 := by
  have h : (a1 * c2) * b2 = (c1 * a2) * b2 := by
    calc (a1 * c2) * b2 = (a1 * b2) * c2 := by ring
    _ = (b1 * a2) * c2 := by rw [h1]
    _ = (b1 * c2) * a2 := by ring
    _ = (c1 * b2) * a2 := by rw [h2]
    _ = (c1 * a2) * b2 := by ring
  exact Nat.eq_of_mul_eq_mul_right hb h

theorem betterCand_trans {t x y z : String} (h1 : betterCand t x y = true)
    (h2 : betterCand t y z = true) : betterCand t x z = true := by
  rw [betterCand, Bool.or_eq_true, Bool.and_eq_true] at h1 h2 ⊢
  simp only [decide_eq_true_eq, gt_iff_lt] at h1 h2 ⊢
  have hx := ratioRep_den_pos t x
  have hy := ratioRep_den_pos t y
  have hz := ratioRep_den_pos t z
  rcases h1 with h1 | ⟨h1e, h1s⟩ <;> rcases h2 with h2 | ⟨h2e, h2s⟩
  · exact Or.inl (cross_lt_trans hx hy hz h1 h2)
  · exact Or.inl (cross_lt_eq_trans hx hy hz h1 h2e.symm)
  · exact Or.inl (cross_eq_lt_trans hx hy hz h1e.symm h2)
  · exact Or.inr ⟨(cross_eq_trans hy h1e.symm h2e.symm).symm, lt_trans h1s h2s⟩

/-- The invariant carried through `get_close_matches`' scan: after
processing `seen`, a `none` accumulator means no candidate qualified, and
a `some x` accumulator is a qualifying candidate of `seen` that no other
qualifying candidate of `seen` beats. -/
def bestInv (t : String) (seen : List String) : Option String → Prop
  | none => ∀ y ∈ seen, ratioQual t y = false
  | some x => x ∈ seen ∧ ratioQual t x = true ∧
      ∀ y ∈ seen, ratioQual t y = true → betterCand t x y = false

theorem getCloseMatch1_foldInv (t : String) (l : List String) :
    ∀ (seen : List String) (acc : Option String), bestInv t seen acc →
    bestInv t (seen ++ l)
      (l.foldl (fun best c =>
        if ratioQual t c then
          match best with
          | none => some c
          | some b => if betterCand t b c then some c else best
        else best) acc) := by
  induction l with
  | nil =>
    intro seen acc h
    simpa using h
  | cons c l ih =>
    intro seen acc h
    rw [List.foldl_cons]
    have hstep : bestInv t (seen ++ [c])
        ((fun best c =>
          if ratioQual t c then
            match best with
            | none => some c
            | some b => if betterCand t b c then some c else best
          else best) acc c) := by
      cases acc with
      | none =>
        show bestInv t (seen ++ [c]) (if ratioQual t c then some c else none)
        by_cases hq : ratioQual t c = true
        · rw [if_pos hq]
          refine ⟨List.mem_append_right seen (List.mem_singleton_self c), hq, ?_⟩
          intro y hy hqy
          rcases List.mem_append.mp hy with hy | hy
          · exact absurd hqy (by simp [h y hy])
          · rw [List.mem_singleton] at hy
            subst hy
            exact betterCand_irrefl t y
        · rw [if_neg hq]
          intro y hy
          rcases List.mem_append.mp hy with hy | hy
          · exact h y hy
          · rw [List.mem_singleton] at hy
            subst hy
            simpa using hq
      | some b =>
        show bestInv t (seen ++ [c])
          (if ratioQual t c then (if betterCand t b c then some c else some b) else some b)
        obtain ⟨hbmem, hbq, hbbest⟩ := h
        by_cases hq : ratioQual t c = true
        · rw [if_pos hq]
          by_cases hbc : betterCand t b c = true
          · rw [if_pos hbc]
            refine ⟨List.mem_append_right seen (List.mem_singleton_self c), hq, ?_⟩
            intro y hy hqy
            rcases List.mem_append.mp hy with hy | hy
            · by_contra hcy
              have hcy' : betterCand t c y = true := by simpa using hcy
              have hby : betterCand t b y = true := betterCand_trans hbc hcy'
              rw [hbbest y hy hqy] at hby
              cases hby
            · rw [List.mem_singleton] at hy
              subst hy
              exact betterCand_irrefl t y
          · rw [if_neg hbc]
            refine ⟨List.mem_append_left _ hbmem, hbq, ?_⟩
            intro y hy hqy
            rcases List.mem_append.mp hy with hy | hy
            · exact hbbest y hy hqy
            · rw [List.mem_singleton] at hy
              subst hy
              simpa using hbc
        · rw [if_neg hq]
          refine ⟨List.mem_append_left _ hbmem, hbq, ?_⟩
          intro y hy hqy
          rcases List.mem_append.mp hy with hy | hy
          · exact hbbest y hy hqy
          · rw [List.mem_singleton] at hy
            subst hy
            exact absurd hqy (by simpa using hq)
    have hres := ih (seen ++ [c]) _ hstep
    simpa [List.append_assoc] using hres

/-- C5: the fuzzy column suggestion finds, for each target name, the single
best approximate match at the 0.6 similarity cutoff (best in
`get_close_matches`' order: highest ratio, ties to the lexicographically
larger candidate, none when no candidate qualifies), collects the distinct
matches across target names into one deduplicated result, and as a pure
function is deterministic; on targets `["Style", "Style #"]` against
candidates `["Style Code", "Color"]` it returns exactly `["Style Code"]`. -/
theorem fuzzy_match_column_spec :
    fuzzy_match_column ["Style", "Style #"] ["Style Code", "Color"] = ["Style Code"] ∧
    (∀ ts cs : List String, (fuzzy_match_column ts cs).Nodup) ∧
    (∀ (ts cs : List String) (x : String),
      x ∈ fuzzy_match_column ts cs ↔ ∃ n ∈ ts, getCloseMatch1 n cs = some x) ∧
    (∀ (t : String) (cs : List String) (x : String), getCloseMatch1 t cs = some x →
      x ∈ cs ∧ ratioQual t x = true ∧
      ∀ y ∈ cs, ratioQual t y = true → betterCand t x y = false) ∧
    (∀ (t : String) (cs : List String), getCloseMatch1 t cs = none →
      ∀ y ∈ cs, ratioQual t y = false) := by
  refine ⟨by decide, ?_, ?_, ?_, ?_⟩
  · intro ts cs
    exact List.nodup_dedup _
  · intro ts cs x
    rw [fuzzy_match_column, List.mem_dedup, List.mem_filterMap]
  · intro t cs x hx
    have h := getCloseMatch1_foldInv t cs [] none (by intro y hy; cases hy)
    rw [List.nil_append] at h
    rw [getCloseMatch1] at hx
    rw [hx] at h
    exact h
  · intro t cs hnone
    have h := getCloseMatch1_foldInv t cs [] none (by intro y hy; cases hy)
    rw [List.nil_append] at h
    rw [getCloseMatch1] at hnone
    rw [hnone] at h
    exact h

/-- C5 witness: the best-match characterization applied at the scenario's
first target name puts `"Style Code"` in the suggestion set. -/
theorem fuzzy_match_column_spec_app :
    "Style Code" ∈ fuzzy_match_column ["Style"] ["Style Code", "Color"] :=
  (fuzzy_match_column_spec.2.2.1 ["Style"] ["Style Code", "Color"] "Style Code").mpr
    ⟨"Style", List.mem_singleton_self "Style", by decide⟩

end Chassis
